import Mathlib

/-!
# Verification of the `geosemops` entity-resolution design

The repository's public module `geosemops.operators` documents four semantic
operators (`sem_map`, `sem_filter`, `sem_match`, `sem_resolve`); its design
document specifies the `sem_resolve` entity-resolution pipeline in detail.
This file embeds the data model and the pipeline and proves the testable
properties stated in the design.

The module body itself contains no implementation yet, so every pipeline
definition below is modelled from the design document (see the doc comments);
the module-surface facts are embedded directly from the source file.
-/

namespace GeoSemOps

/-! ## Data model -/

/-- Row identifiers are stable identifiers; modelled as naturals. -/
abbrev RowId := Nat

/-- Similarity scores live in the rational interval `[0,1]`. -/
abbrev Score := ℚ

/-- Modelled from the spec: a `Row` is an immutable record with a stable
identifier, a mapping of named attributes to (possibly missing) values, and
one designated geometry attribute (a planar point, possibly absent for
degenerate geometry). -/
structure Row where
  id : RowId
  attrs : List (String × Option String)
  geom : Option (Int × Int)
  deriving DecidableEq, Repr

/-- Modelled from the spec: the reason a candidate pair was emitted by the
Blocking Engine (geometric proximity or a shared blocking key). -/
inductive BlockReason
  | proximity
  | sharedKey
  deriving DecidableEq, Repr

/-- Modelled from the spec: a `CandidatePair` is a pair of rows plus a
blocking reason, ephemeral within one pipeline run. -/
structure CandidatePair where
  fst : Row
  snd : Row
  reason : BlockReason
  deriving DecidableEq, Repr

/-- Modelled from the spec: a `ScoredPair` is a candidate pair augmented with
a similarity score in `[0,1]`. -/
structure ScoredPair where
  a : RowId
  b : RowId
  score : Score
  deriving DecidableEq, Repr

/-- Modelled from the spec: the tagged variant of raw oracle outputs
(boolean, numeric score, or labeled category), normalized at the Match
Oracle Adapter boundary. -/
inductive MatchVerdict
  | verdictBool (b : Bool)
  | verdictScore (s : Score)
  | verdictLabel (l : String)
  deriving DecidableEq, Repr

/-- Modelled from the spec: the caller-supplied `sem_match` capability, a
pairwise comparator. The extra `Nat` argument is the attempt index: a `none`
result is a transient failure of that single invocation, so retries are the
later attempt indices. A deterministic oracle is simply a function value. -/
abbrev MatchCapability := Row → Row → Nat → Option MatchVerdict

/-- Modelled from the spec: clustering strategies of the Resolution Graph
Builder. -/
inductive ClusteringStrategy
  | connectedComponents
  | thresholdClique
  deriving DecidableEq, Repr

/-- Modelled from the spec: the configuration enumerating
`{blocking_radius, blocking_key_fields, batch_size, match_threshold,
clustering_strategy, merge_policy, max_retries}` plus the fail-fast toggle.
Strategy and merge policy arrive as caller-supplied strings and are parsed
at pipeline start, so an unknown name is representable. -/
structure Config where
  blockingRadius : Int
  blockingKeyFields : List String
  batchSize : Nat
  matchThreshold : Score
  clusteringStrategy : String
  mergePolicy : String
  maxRetries : Nat
  failFast : Bool
  deriving Repr

/-- Modelled from the spec: the error taxonomy surfaced by `sem_resolve`. -/
inductive ResolveError
  | inputError
  | configurationError
  | oracleError
  deriving DecidableEq, Repr

/-- Modelled from the spec: one merged representative row per cluster plus
the member row identifiers (provenance). -/
structure CanonicalEntity where
  members : List RowId
  attrs : List (String × Option String)
  geom : Option (ℚ × ℚ)
  deriving DecidableEq, Repr

/-- Modelled from the spec: the value returned by `sem_resolve` — canonical
entities, the cluster partition, the row-id to cluster-id membership map,
and the metadata list of pairs degraded by oracle failure. -/
structure ResolutionResult where
  entities : List CanonicalEntity
  clusters : List (List RowId)
  membership : List (RowId × Nat)
  failedPairs : List (RowId × RowId)
  deriving DecidableEq, Repr

/-! ## Deterministic input ordering

The design demands output independent of iteration order, so the
orchestrator canonicalizes the input order by sorting rows by identifier
before any stage runs. -/

/-- Ordering of rows by identifier. -/
def rowIdLE (r s : Row) : Prop := r.id ≤ s.id

instance : DecidableRel rowIdLE := fun r s => Nat.decLe r.id s.id

/-- Canonical input order: rows sorted by identifier. -/
def sortRows (rows : List Row) : List Row := List.insertionSort rowIdLE rows

/-! ## Blocking Engine -/

/-- Attribute lookup on a row: `some v` only when the attribute is present
and non-null. -/
def lookupAttr (r : Row) (name : String) : Option String :=
  match r.attrs.lookup name with
  | some v => v
  | none => none

/-- Modelled from the spec: geometric proximity test of the Blocking Engine.
Rows with degenerate (missing) geometry are excluded from spatial blocking
but not from the pipeline. -/
def withinRadius (radius : Int) (r s : Row) : Bool :=
  match r.geom, s.geom with
  | some g, some h => decide ((g.1 - h.1) ^ 2 + (g.2 - h.2) ^ 2 ≤ radius ^ 2)
  | _, _ => false

/-- Modelled from the spec: the non-spatial blocking-key test (same value on
some configured blocking key field). -/
def sharesKey (fields : List String) (r s : Row) : Bool :=
  fields.any fun f =>
    match lookupAttr r f, lookupAttr s f with
    | some v, some w => v == w
    | _, _ => false

/-- Why a pair of rows is blocked together, if at all. -/
def blockReason (cfg : Config) (r s : Row) : Option BlockReason :=
  if withinRadius cfg.blockingRadius r s then some .proximity
  else if sharesKey cfg.blockingKeyFields r s then some .sharedKey
  else none

/-- All unordered pairs of a list, each emitted once, first component
earlier in the list. -/
def allPairs : List Row → List (Row × Row)
  | [] => []
  | r :: rest => (rest.map fun s => (r, s)) ++ allPairs rest

/-- Modelled from the spec: `generate_candidates(rows, index, config)` —
the candidate-pair stream, each unordered pair at most once, a pair kept
when it is geometrically close or shares a blocking key. -/
def generate_candidates (cfg : Config) (rows : List Row) : List CandidatePair :=
  (allPairs rows).filterMap fun p =>
    (blockReason cfg p.1 p.2).map fun why => ⟨p.1, p.2, why⟩

/-! ## Match Oracle Adapter -/

/-- The symmetric memoization key of a row-id pair: `(a,b)` and `(b,a)`
share one key. -/
def pairKey (a b : RowId) : RowId × RowId := (min a b, max a b)

/-- Clamp a raw numeric score into `[0,1]`. -/
def clamp01 (s : Score) : Score := max 0 (min 1 s)

/-- Modelled from the spec: normalization of the oracle's raw output
(boolean, score, or label) into the canonical numeric score. -/
def normalizeVerdict : MatchVerdict → Score
  | .verdictBool true => 1
  | .verdictBool false => 0
  | .verdictScore s => clamp01 s
  | .verdictLabel l =>
      if l = "match" then 1 else if l = "uncertain" then mkRat 1 2 else 0

/-- First successful verdict among the attempts `0, …, n-1` of the
capability on a pair (earlier attempts take precedence). -/
def attemptUpTo (cap : MatchCapability) (r s : Row) : Nat → Option MatchVerdict
  | 0 => none
  | n + 1 =>
    match attemptUpTo cap r s n with
    | some v => some v
    | none => cap r s n

/-- Modelled from the spec: invoke the capability on a pair, retrying up to
`maxRetries` times after the first attempt; `none` means the retry budget
was exhausted. -/
def invokeWithRetry (cap : MatchCapability) (maxRetries : Nat) (r s : Row) :
    Option MatchVerdict :=
  attemptUpTo cap r s (maxRetries + 1)

/-- The mutable state threaded through the scoring stage: the memoization
cache, the scored pairs in emission order, the keys for which the oracle was
actually consulted, and the keys degraded by exhausted retries. -/
structure ScoringState where
  cache : List ((RowId × RowId) × Score)
  scored : List ScoredPair
  invoked : List (RowId × RowId)
  failures : List (RowId × RowId)
  deriving DecidableEq, Repr

/-- The scoring state at pipeline start: everything empty. -/
def initState : ScoringState := ⟨[], [], [], []⟩

/-- Modelled from the spec: `score(pair, capability)` of the Match Oracle
Adapter — memoized by symmetric pair key; on a cache miss the oracle is
invoked with retries; exhausted retries degrade to score `0` and are
recorded (or abort the run in fail-fast mode). -/
def scoreOne (cap : MatchCapability) (cfg : Config) (st : ScoringState)
    (r s : Row) : Except ResolveError (ScoringState × Score) :=
  let k := pairKey r.id s.id
  match st.cache.lookup k with
  | some sc => .ok (st, sc)
  | none =>
    match invokeWithRetry cap cfg.maxRetries r s with
    | some v =>
      let sc := normalizeVerdict v
      .ok ({ st with cache := (k, sc) :: st.cache, invoked := st.invoked ++ [k] }, sc)
    | none =>
      if cfg.failFast then .error .oracleError
      else
        .ok ({ st with
                 cache := (k, 0) :: st.cache
                 invoked := st.invoked ++ [k]
                 failures := st.failures ++ [k] }, 0)

/-- Score one candidate pair and append the resulting scored pair. -/
def scoreStep (cap : MatchCapability) (cfg : Config) (st : ScoringState)
    (p : CandidatePair) : Except ResolveError ScoringState :=
  match scoreOne cap cfg st p.fst p.snd with
  | .error e => .error e
  | .ok (st1, sc) => .ok { st1 with scored := st1.scored ++ [⟨p.fst.id, p.snd.id, sc⟩] }

/-- Modelled from the spec: the scoring stage — score every candidate pair
in order, threading the adapter state. -/
def scoreAll (cap : MatchCapability) (cfg : Config) :
    ScoringState → List CandidatePair → Except ResolveError ScoringState
  | st, [] => .ok st
  | st, p :: ps =>
    match scoreStep cap cfg st p with
    | .error e => .error e
    | .ok st1 => scoreAll cap cfg st1 ps

/-! ## Resolution Graph Builder -/

/-- Merge into one block all blocks of the partition touching either
endpoint of an edge; blocks touching neither endpoint are kept as they are. -/
def mergeStep (P : List (List RowId)) (e : RowId × RowId) : List (List RowId) :=
  if (P.filter fun b => decide (e.1 ∈ b) || decide (e.2 ∈ b)).isEmpty then P
  else
    (P.filter fun b => decide (e.1 ∈ b) || decide (e.2 ∈ b)).flatten ::
      P.filter fun b => !(decide (e.1 ∈ b) || decide (e.2 ∈ b))

/-- Modelled from the spec: connected-components clustering — start from
singleton blocks and merge along every accepted edge (transitive closure). -/
def connectedClusters (ids : List RowId) (edges : List (RowId × RowId)) :
    List (List RowId) :=
  edges.foldl mergeStep (ids.map fun i => [i])

/-- Greedily extend a clique: keep each remaining id adjacent to every
current member; return the clique and the leftovers. -/
def extendClique (adj : RowId → RowId → Bool) :
    List RowId → List RowId → List RowId × List RowId
  | mem, [] => (mem, [])
  | mem, j :: rest =>
    if mem.all fun i => adj i j then extendClique adj (mem ++ [j]) rest
    else
      let p := extendClique adj mem rest
      (p.1, j :: p.2)

theorem extendClique_snd_length (adj : RowId → RowId → Bool) :
    ∀ (mem rest : List RowId), (extendClique adj mem rest).2.length ≤ rest.length := by
  intro mem rest
  induction rest generalizing mem with
  | nil => simp [extendClique]
  | cons j rest ih =>
    simp only [extendClique]
    by_cases h : (mem.all fun i => adj i j) = true
    · simp only [h, if_true]
      exact Nat.le_succ_of_le (ih (mem ++ [j]))
    · simp only [h]
      simpa using ih mem

/-- Modelled from the spec: threshold-clique clustering — a cluster is only
formed from ids that are pairwise adjacent; processed deterministically in
id order over the sorted input. -/
def cliquePartition (adj : RowId → RowId → Bool) : List RowId → List (List RowId)
  | [] => []
  | i :: rest =>
    let p := extendClique adj [i] rest
    p.1 :: cliquePartition adj p.2
termination_by l => l.length
decreasing_by
  simpa using Nat.lt_succ_of_le (extendClique_snd_length adj [i] rest)

/-- Adjacency induced by the scored pairs at a threshold, symmetric in its
two arguments. -/
def acceptedAdj (scored : List ScoredPair) (t : Score) (a b : RowId) : Bool :=
  scored.any fun sp =>
    decide (t ≤ sp.score) && ((sp.a == a && sp.b == b) || (sp.a == b && sp.b == a))

/-- The edges of the similarity graph: scored pairs at or above the
acceptance threshold. -/
def acceptedEdges (t : Score) (scored : List ScoredPair) : List (RowId × RowId) :=
  (scored.filter fun sp => decide (t ≤ sp.score)).map fun sp => (sp.a, sp.b)

/-- Modelled from the spec: `build_and_cluster(scored_pairs, threshold,
strategy)` — build the similarity graph of accepted edges and partition by
the configured strategy; rows with no accepted edge become singletons. -/
def build_and_cluster (strat : ClusteringStrategy) (t : Score) (ids : List RowId)
    (scored : List ScoredPair) : List (List RowId) :=
  match strat with
  | .connectedComponents => connectedClusters ids (acceptedEdges t scored)
  | .thresholdClique => cliquePartition (acceptedAdj scored t) ids

/-! ## Canonicalizer -/

/-- The number of present (non-null) attributes of a row. -/
def completeness (r : Row) : Nat := (r.attrs.filter fun p => p.2.isSome).length

/-- Merge priority between rows: more complete first, ties broken by lower
row identifier. -/
def preferredBefore (r s : Row) : Bool :=
  decide (completeness s < completeness r)
    || (completeness s == completeness r && decide (r.id ≤ s.id))

/-- Arithmetic centroid of a set of member geometries, `none` when no member
has valid geometry. -/
def centroid (gs : List (Int × Int)) : Option (ℚ × ℚ) :=
  match gs with
  | [] => none
  | _ =>
    some ((gs.map fun g => (g.1 : ℚ)).sum / gs.length,
          (gs.map fun g => (g.2 : ℚ)).sum / gs.length)

/-- Modelled from the spec: `canonicalize(cluster, rows, merge_policy)` —
the default merge policy prefers, per attribute, the value of the most
complete row, ties by lowest id; the canonical geometry is the centroid of
member geometries. -/
def canonicalize (rows : List Row) (cluster : List RowId) : CanonicalEntity :=
  let members := cluster.filterMap fun i => rows.find? fun r => r.id == i
  let ordered := List.insertionSort (fun r s => preferredBefore r s = true) members
  let names := ((ordered.map fun r => r.attrs.map Prod.fst).flatten).dedup
  let attrs := names.map fun n => (n, (ordered.filterMap fun r => lookupAttr r n).head?)
  { members := cluster
  , attrs := attrs
  , geom := centroid (members.filterMap Row.geom) }

/-! ## Orchestrator (`sem_resolve`) -/

/-- Parse the configured clustering strategy name; `none` for an unknown
strategy. -/
def parseStrategy : String → Option ClusteringStrategy
  | "connected-components" => some .connectedComponents
  | "threshold-clique" => some .thresholdClique
  | _ => none

/-- Parse the configured merge policy name; only the default policy exists. -/
def parseMergePolicy : String → Option Unit
  | "prefer-complete" => some ()
  | _ => none

/-- A configuration is valid when its strategy and merge policy are known
and its match threshold lies in `[0,1]`. -/
def validConfig (cfg : Config) : Bool :=
  (parseStrategy cfg.clusteringStrategy).isSome
    && (parseMergePolicy cfg.mergePolicy).isSome
    && decide (0 ≤ cfg.matchThreshold) && decide (cfg.matchThreshold ≤ 1)

/-- The membership map: each row id paired with the index of its cluster. -/
def membershipOf (clusters : List (List RowId)) : List (RowId × Nat) :=
  (clusters.enum.map fun ci => ci.2.map fun a => (a, ci.1)).flatten

/-- The pipeline stages downstream of configuration validation, run on the
canonically ordered rows: blocking, scoring, clustering, canonicalization. -/
def runPipeline (cap : MatchCapability) (cfg : Config) (strat : ClusteringStrategy)
    (sorted : List Row) : Except ResolveError ResolutionResult :=
  match scoreAll cap cfg initState (generate_candidates cfg sorted) with
  | .error e => .error e
  | .ok st =>
    let ids := sorted.map Row.id
    let clusters := build_and_cluster strat cfg.matchThreshold ids st.scored
    .ok { entities := clusters.map fun c => canonicalize sorted c
        , clusters := clusters
        , membership := membershipOf clusters
        , failedPairs := st.failures }

/-- Modelled from the spec: `sem_resolve(rows, match_capability, config)` —
validate the configuration synchronously before any row is processed, then
run the pipeline on the id-sorted rows. -/
def sem_resolve (rows : List Row) (cap : MatchCapability) (cfg : Config) :
    Except ResolveError ResolutionResult :=
  match parseStrategy cfg.clusteringStrategy, parseMergePolicy cfg.mergePolicy with
  | some strat, some _ =>
    if 0 ≤ cfg.matchThreshold ∧ cfg.matchThreshold ≤ 1 then
      runPipeline cap cfg strat (sortRows rows)
    else .error .configurationError
  | _, _ => .error .configurationError

/-! ## The module surface as present in the repository -/

/-- A Python module reduced to its observable surface: its docstring and the
names its body defines. -/
structure PythonModule where
  docstring : String
  definedNames : List String
  deriving DecidableEq, Repr

/-- The module `geosemops.operators` exactly as in the source file
`src/geosemops/operators/__init__.py`: a docstring listing the four planned
operators and a TODO comment, defining no names. -/
def operatorsModule : PythonModule :=
  { docstring := "Semantic operators for geospatial data processing."
  , definedNames := [] }

/-! ## Decidability helpers and concrete scenario inputs -/

instance {ε α : Type} [DecidableEq ε] [DecidableEq α] : DecidableEq (Except ε α) := fun x y =>
  match x, y with
  | .ok a, .ok b => decidable_of_iff (a = b) (by simp)
  | .error e, .error f => decidable_of_iff (e = f) (by simp)
  | .ok _, .error _ => isFalse (by simp)
  | .error _, .ok _ => isFalse (by simp)

/-- Row A of the chaining scenario. -/
def rowA : Row := ⟨0, [("name", some "alpha")], some (0, 0)⟩

/-- Row B of the chaining scenario. -/
def rowB : Row := ⟨1, [("name", some "beta")], some (1, 0)⟩

/-- Row C of the chaining scenario. -/
def rowC : Row := ⟨2, [("name", some "gamma")], some (2, 0)⟩

/-- The deterministic oracle of the chaining scenario: A-B scores 0.9,
B-C scores 0.9, A-C scores 0.3. -/
def chainCap : MatchCapability := fun r s _ =>
  let k := pairKey r.id s.id
  if k = (0, 1) then some (.verdictScore (mkRat 9 10))
  else if k = (1, 2) then some (.verdictScore (mkRat 9 10))
  else if k = (0, 2) then some (.verdictScore (mkRat 3 10))
  else none

/-- The chaining-scenario configuration: threshold 0.8,
connected-components strategy. -/
def chainConfig : Config :=
  { blockingRadius := 10
  , blockingKeyFields := []
  , batchSize := 8
  , matchThreshold := mkRat 8 10
  , clusteringStrategy := "connected-components"
  , mergePolicy := "prefer-complete"
  , maxRetries := 2
  , failFast := false }

/-! ## C10: the public module surface -/

/-- C10: the public module `geosemops.operators` defines no names at all —
in particular none of the four documented operators `sem_map`, `sem_filter`,
`sem_match`, `sem_resolve` exists as an attribute of the module, so any
attempt to pull in or call one of those names fails to resolve. -/
theorem operators_module_defines_nothing :
    operatorsModule.definedNames = [] ∧
    "sem_map" ∉ operatorsModule.definedNames ∧
    "sem_filter" ∉ operatorsModule.definedNames ∧
    "sem_match" ∉ operatorsModule.definedNames ∧
    "sem_resolve" ∉ operatorsModule.definedNames := by
  refine ⟨rfl, ?_, ?_, ?_, ?_⟩ <;> simp [operatorsModule]

/-! ## C3: symmetry of the memoized scoring -/

/-- C3: the memoization key is symmetric, and after scoring `(a, b)` the
adapter returns the identical cached result for `(b, a)` without changing
its state. -/
theorem score_symmetric (cap : MatchCapability) (cfg : Config) (st st1 : ScoringState)
    (r s : Row) (sc : Score)
    (h : scoreOne cap cfg st r s = .ok (st1, sc)) :
    pairKey s.id r.id = pairKey r.id s.id ∧
    scoreOne cap cfg st1 s r = .ok (st1, sc) := by
  have hk : pairKey s.id r.id = pairKey r.id s.id := by
    unfold pairKey
    rw [Nat.min_comm, Nat.max_comm]
  have hlook : st1.cache.lookup (pairKey r.id s.id) = some sc := by
    simp only [scoreOne] at h
    cases hl : st.cache.lookup (pairKey r.id s.id) with
    | some sc0 =>
      rw [hl] at h
      simp at h
      rw [← h.1, hl, h.2]
    | none =>
      rw [hl] at h
      cases hi : invokeWithRetry cap cfg.maxRetries r s with
      | some v =>
        rw [hi] at h
        simp at h
        rw [← h.1]
        simp [List.lookup_cons, h.2]
      | none =>
        rw [hi] at h
        cases hff : cfg.failFast with
        | true => rw [hff] at h; simp at h
        | false =>
          rw [hff] at h
          simp at h
          rw [← h.1]
          simp [List.lookup_cons, h.2]
  refine ⟨hk, ?_⟩
  simp only [scoreOne, hk, hlook]

/-- Witness for C3 at a concrete input. -/
theorem score_symmetric_witness :
    pairKey rowB.id rowA.id = pairKey rowA.id rowB.id ∧
    scoreOne chainCap chainConfig
      ⟨[((0, 1), mkRat 9 10)], [], [(0, 1)], []⟩ rowB rowA =
      .ok (⟨[((0, 1), mkRat 9 10)], [], [(0, 1)], []⟩, mkRat 9 10) :=
  score_symmetric chainCap chainConfig initState
    ⟨[((0, 1), mkRat 9 10)], [], [(0, 1)], []⟩ rowA rowB (mkRat 9 10) (by decide)

/-! ## C9: configuration validation happens before any work -/

/-- C9: an invalid configuration (threshold outside `[0,1]`, unknown
clustering strategy, or unknown merge policy) makes `sem_resolve` fail
synchronously with a `ConfigurationError`, for every input collection and
capability — no row is ever processed. -/
theorem sem_resolve_invalid_config (rows : List Row) (cap : MatchCapability)
    (cfg : Config) (h : validConfig cfg = false) :
    sem_resolve rows cap cfg = .error .configurationError := by
  unfold validConfig at h
  unfold sem_resolve
  cases hs : parseStrategy cfg.clusteringStrategy with
  | none => rfl
  | some strat =>
    cases hm : parseMergePolicy cfg.mergePolicy with
    | none => rfl
    | some u =>
      rw [hs, hm] at h
      simp only [Option.isSome_some, Bool.true_and, Bool.and_eq_false_iff,
        decide_eq_false_iff_not] at h
      show (if 0 ≤ cfg.matchThreshold ∧ cfg.matchThreshold ≤ 1 then
          runPipeline cap cfg strat (sortRows rows)
        else Except.error ResolveError.configurationError) =
          Except.error ResolveError.configurationError
      rw [if_neg]
      rintro ⟨h0, h1⟩
      rcases h with h | h
      · exact h h0
      · exact h h1

/-- Witness for C9: a configuration whose threshold exceeds 1. -/
theorem sem_resolve_invalid_config_witness :
    validConfig { chainConfig with matchThreshold := 2 } = false ∧
    sem_resolve [rowA] chainCap { chainConfig with matchThreshold := 2 } =
      .error .configurationError :=
  ⟨by decide, sem_resolve_invalid_config [rowA] chainCap _ (by decide)⟩

/-! ## C6: the empty input yields the empty result -/

/-- C6: for the empty row collection and any validly configured run,
`sem_resolve` succeeds with the empty result (no entities, no clusters,
empty membership, no recorded failures) rather than failing. -/
theorem sem_resolve_empty (cap : MatchCapability) (cfg : Config)
    (h : validConfig cfg = true) :
    sem_resolve [] cap cfg = .ok ⟨[], [], [], []⟩ := by
  unfold validConfig at h
  unfold sem_resolve
  cases hs : parseStrategy cfg.clusteringStrategy with
  | none => rw [hs] at h; simp at h
  | some strat =>
    cases hm : parseMergePolicy cfg.mergePolicy with
    | none => rw [hs, hm] at h; simp at h
    | some u =>
      rw [hs, hm] at h
      simp only [Option.isSome_some, Bool.true_and, Bool.and_eq_true,
        decide_eq_true_eq] at h
      show (if 0 ≤ cfg.matchThreshold ∧ cfg.matchThreshold ≤ 1 then
          runPipeline cap cfg strat (sortRows [])
        else Except.error ResolveError.configurationError) =
          Except.ok ⟨[], [], [], []⟩
      rw [if_pos h]
      cases strat with
      | connectedComponents => rfl
      | thresholdClique =>
        show Except.map (fun st =>
            ({ entities := (cliquePartition (acceptedAdj st.scored cfg.matchThreshold)
                  (([] : List Row).map Row.id)).map fun c => canonicalize [] c
             , clusters := cliquePartition (acceptedAdj st.scored cfg.matchThreshold)
                  (([] : List Row).map Row.id)
             , membership := membershipOf (cliquePartition
                  (acceptedAdj st.scored cfg.matchThreshold) (([] : List Row).map Row.id))
             , failedPairs := st.failures } : ResolutionResult))
            (Except.ok initState) = Except.ok ⟨[], [], [], []⟩
        simp [Except.map, initState, cliquePartition, membershipOf]

/-- Witness for C6 at the concrete scenario configuration. -/
theorem sem_resolve_empty_witness :
    validConfig chainConfig = true ∧
    sem_resolve [] chainCap chainConfig = .ok ⟨[], [], [], []⟩ :=
  ⟨by decide, sem_resolve_empty chainCap chainConfig (by decide)⟩

/-! ## C5: the chaining scenario -/

/-- C5: with scores A-B 0.9, B-C 0.9, A-C 0.3, threshold 0.8 and the
connected-components strategy, `sem_resolve` returns the single cluster
containing all of A, B, C even though the A-C score is below threshold. -/
theorem sem_resolve_chaining :
    (sem_resolve [rowA, rowB, rowC] chainCap chainConfig).map
      (fun r => r.clusters) = .ok [[0, 1, 2]] := by
  decide

/-! ## C2: determinism of the pipeline -/

/-- Strict ordering of rows by identifier. -/
def rowIdLT (r s : Row) : Prop := r.id < s.id

instance : IsTotal Row rowIdLE := ⟨fun a b => Nat.le_total a.id b.id⟩

instance : IsTrans Row rowIdLE := ⟨fun _ _ _ h1 h2 => Nat.le_trans h1 h2⟩

instance : IsAntisymm Row rowIdLT :=
  ⟨fun a _ h1 h2 => absurd (Nat.lt_trans h1 h2) (Nat.lt_irrefl a.id)⟩

theorem sortRows_perm (rows : List Row) : List.Perm (sortRows rows) rows :=
  List.perm_insertionSort rowIdLE rows

/-- On inputs with distinct row ids, the sorted rows are strictly sorted. -/
theorem sortRows_sorted_lt (rows : List Row) (hn : (rows.map Row.id).Nodup) :
    (sortRows rows).Sorted rowIdLT := by
  have hs : (sortRows rows).Sorted rowIdLE := List.sorted_insertionSort rowIdLE rows
  have hn2 : ((sortRows rows).map Row.id).Nodup :=
    (((sortRows_perm rows).map Row.id).nodup_iff).mpr hn
  have hne : (sortRows rows).Pairwise fun a b => a.id ≠ b.id :=
    List.pairwise_map.mp hn2
  exact (hs.and hne).imp fun h => Nat.lt_of_le_of_ne h.1 h.2

/-- The canonical input order is a function of the input as a multiset: any
two permutations of the same distinct-id rows sort identically. -/
theorem sortRows_eq_of_perm (rows1 rows2 : List Row)
    (hn : (rows1.map Row.id).Nodup) (hp : List.Perm rows1 rows2) :
    sortRows rows1 = sortRows rows2 := by
  have hperm : List.Perm (sortRows rows1) (sortRows rows2) :=
    ((sortRows_perm rows1).trans hp).trans (sortRows_perm rows2).symm
  have hn2 : (rows2.map Row.id).Nodup := ((hp.map Row.id).nodup_iff).mp hn
  exact List.eq_of_perm_of_sorted hperm (sortRows_sorted_lt rows1 hn)
    (sortRows_sorted_lt rows2 hn2)

/-- C2: `sem_resolve` is deterministic — with a fixed (deterministic)
capability and fixed configuration, any two presentations of the same row
collection (any permutation, modelling iteration- and scheduling-order
nondeterminism) produce the identical `ResolutionResult`, entities and
canonical values included. -/
theorem sem_resolve_deterministic (rows1 rows2 : List Row) (cap : MatchCapability)
    (cfg : Config) (hn : (rows1.map Row.id).Nodup) (hp : List.Perm rows1 rows2) :
    sem_resolve rows1 cap cfg = sem_resolve rows2 cap cfg := by
  unfold sem_resolve
  rw [sortRows_eq_of_perm rows1 rows2 hn hp]

/-- Witness for C2: two orderings of the scenario rows resolve identically. -/
theorem sem_resolve_deterministic_witness :
    ([rowA, rowB, rowC].map Row.id).Nodup ∧
    List.Perm [rowA, rowB, rowC] [rowC, rowA, rowB] ∧
    sem_resolve [rowA, rowB, rowC] chainCap chainConfig =
      sem_resolve [rowC, rowA, rowB] chainCap chainConfig :=
  ⟨by decide, by decide,
    sem_resolve_deterministic [rowA, rowB, rowC] [rowC, rowA, rowB] chainCap
      chainConfig (by decide) (by decide)⟩

/-! ## C7: each unordered pair is emitted and scored at most once -/

/-- The symmetric memoization key of a candidate pair. -/
def candKey (p : CandidatePair) : RowId × RowId := pairKey p.fst.id p.snd.id

theorem allPairs_mem (l : List Row) (q : Row × Row) (h : q ∈ allPairs l) :
    q.1 ∈ l ∧ q.2 ∈ l := by
  induction l with
  | nil => cases h
  | cons r rest ih =>
    simp only [allPairs, List.mem_append, List.mem_map] at h
    rcases h with ⟨s, hs, heq⟩ | h
    · rw [← heq]
      exact ⟨List.mem_cons_self r rest, List.mem_cons_of_mem r hs⟩
    · rcases ih h with ⟨h1, h2⟩
      exact ⟨List.mem_cons_of_mem r h1, List.mem_cons_of_mem r h2⟩

theorem allPairs_lt (l : List Row) (hl : l.Pairwise rowIdLT) (q : Row × Row)
    (h : q ∈ allPairs l) : q.1.id < q.2.id := by
  induction l with
  | nil => cases h
  | cons r rest ih =>
    rcases List.pairwise_cons.mp hl with ⟨hr, hrest⟩
    simp only [allPairs, List.mem_append, List.mem_map] at h
    rcases h with ⟨s, hs, heq⟩ | h
    · rw [← heq]
      exact hr s hs
    · exact ih hrest h

theorem allPairs_rawKeys_nodup (l : List Row) (hn : (l.map Row.id).Nodup) :
    ((allPairs l).map fun q => (q.1.id, q.2.id)).Nodup := by
  induction l with
  | nil => simp [allPairs]
  | cons r rest ih =>
    obtain ⟨hr, hrest⟩ : r.id ∉ rest.map Row.id ∧ (rest.map Row.id).Nodup := by
      simpa using hn
    simp only [allPairs, List.map_append, List.map_map]
    rw [List.nodup_append]
    refine ⟨?_, ih hrest, ?_⟩
    · have hpw : rest.Pairwise fun a b => a.id ≠ b.id := List.pairwise_map.mp hrest
      exact List.pairwise_map.mpr (hpw.imp fun hab => by
        simp only [Function.comp_apply, ne_eq, Prod.mk.injEq, not_and]
        exact fun _ hsnd => hab hsnd)
    · intro k hk1 hk2
      simp only [List.mem_map, Function.comp_apply] at hk1
      rcases hk1 with ⟨s, _, hks⟩
      rcases List.mem_map.mp hk2 with ⟨q, hq, hkq⟩
      have h1 : q.1 ∈ rest := (allPairs_mem rest q hq).1
      apply hr
      rw [List.mem_map]
      refine ⟨q.1, h1, ?_⟩
      have : k.1 = q.1.id := by rw [← hkq]
      rw [← this, ← hks]

theorem generate_candidates_shape (cfg : Config) (l : List Row) (p : CandidatePair)
    (h : p ∈ generate_candidates cfg l) :
    ∃ q ∈ allPairs l, p.fst = q.1 ∧ p.snd = q.2 := by
  rcases List.mem_filterMap.mp h with ⟨q, hq, hg⟩
  cases hb : blockReason cfg q.1 q.2 with
  | none => rw [hb] at hg; cases hg
  | some why =>
    rw [hb] at hg
    simp only [Option.map_some', Option.some.injEq] at hg
    rw [← hg]
    exact ⟨q, hq, rfl, rfl⟩

theorem generate_candidates_rawKeys_sublist (cfg : Config) (l : List Row) :
    List.Sublist ((generate_candidates cfg l).map fun p => (p.fst.id, p.snd.id))
      ((allPairs l).map fun q => (q.1.id, q.2.id)) := by
  unfold generate_candidates
  induction allPairs l with
  | nil => simp
  | cons q L ih =>
    cases hb : blockReason cfg q.1 q.2 with
    | none =>
      simp only [List.filterMap_cons, hb, Option.map_none, List.map_cons]
      exact ih.trans (List.sublist_cons_self _ _)
    | some why =>
      simp only [List.filterMap_cons, hb, Option.map_some, List.map_cons]
      exact ih.cons₂ _

theorem candidate_keys_nodup (cfg : Config) (rows : List Row)
    (hn : (rows.map Row.id).Nodup) :
    ((generate_candidates cfg (sortRows rows)).map candKey).Nodup := by
  have hsorted : (sortRows rows).Pairwise rowIdLT := sortRows_sorted_lt rows hn
  have hnodup : ((sortRows rows).map Row.id).Nodup :=
    (((sortRows_perm rows).map Row.id).nodup_iff).mpr hn
  have hraw : ((generate_candidates cfg (sortRows rows)).map
      fun p => (p.fst.id, p.snd.id)).Nodup :=
    (generate_candidates_rawKeys_sublist cfg (sortRows rows)).nodup
      (allPairs_rawKeys_nodup (sortRows rows) hnodup)
  have heq : (generate_candidates cfg (sortRows rows)).map candKey =
      (generate_candidates cfg (sortRows rows)).map fun p => (p.fst.id, p.snd.id) := by
    apply List.map_congr_left
    intro p hp
    rcases generate_candidates_shape cfg (sortRows rows) p hp with ⟨q, hq, h1, h2⟩
    have hlt : p.fst.id < p.snd.id := by
      rw [h1, h2]
      exact allPairs_lt (sortRows rows) hsorted q hq
    unfold candKey pairKey
    rw [Nat.min_eq_left (Nat.le_of_lt hlt), Nat.max_eq_right (Nat.le_of_lt hlt)]
  rw [heq]
  exact hraw

/-- The scoring-stage invariant: invoked keys are distinct and every invoked
key is cached. -/
def AdapterInv (st : ScoringState) : Prop :=
  st.invoked.Nodup ∧ ∀ k ∈ st.invoked, (st.cache.lookup k).isSome = true

theorem scoreOne_inv (cap : MatchCapability) (cfg : Config) (st st1 : ScoringState)
    (r s : Row) (sc : Score) (h : scoreOne cap cfg st r s = .ok (st1, sc))
    (hinv : AdapterInv st) : AdapterInv st1 := by
  rcases hinv with ⟨hnd, hck⟩
  simp only [scoreOne] at h
  cases hl : st.cache.lookup (pairKey r.id s.id) with
  | some sc0 =>
    rw [hl] at h
    simp at h
    rw [← h.1]
    exact ⟨hnd, hck⟩
  | none =>
    have hnotinv : pairKey r.id s.id ∉ st.invoked := by
      intro hmem
      have := hck _ hmem
      rw [hl] at this
      cases this
    have hstep : ∀ v : Score,
        AdapterInv { st with
                      cache := (pairKey r.id s.id, v) :: st.cache
                      invoked := st.invoked ++ [pairKey r.id s.id] } := by
      intro v
      constructor
      · simp [List.nodup_append, hnd, hnotinv]
      · intro k hk
        simp only [List.mem_append, List.mem_singleton] at hk
        by_cases hkk : k = pairKey r.id s.id
        · simp [List.lookup_cons, hkk]
        · rcases hk with hk | hk
          · have hsor := hck _ hk
            have hbeq : (k == pairKey r.id s.id) = false := by
              simpa using hkk
            simp only [List.lookup_cons, hbeq]
            exact hsor
          · exact absurd hk hkk
    rw [hl] at h
    cases hi : invokeWithRetry cap cfg.maxRetries r s with
    | some v =>
      rw [hi] at h
      simp at h
      rw [← h.1]
      exact hstep _
    | none =>
      rw [hi] at h
      cases hff : cfg.failFast with
      | true => rw [hff] at h; simp at h
      | false =>
        rw [hff] at h
        simp at h
        rw [← h.1]
        constructor
        · simp [List.nodup_append, hnd, hnotinv]
        · intro k hk
          simp only [List.mem_append, List.mem_singleton] at hk
          by_cases hkk : k = pairKey r.id s.id
          · simp [List.lookup_cons, hkk]
          · rcases hk with hk | hk
            · have hsor := hck _ hk
              have hbeq : (k == pairKey r.id s.id) = false := by
                simpa using hkk
              simp only [List.lookup_cons, hbeq]
              exact hsor
            · exact absurd hk hkk

theorem scoreStep_inv (cap : MatchCapability) (cfg : Config) (st st1 : ScoringState)
    (p : CandidatePair) (h : scoreStep cap cfg st p = .ok st1)
    (hinv : AdapterInv st) : AdapterInv st1 := by
  simp only [scoreStep] at h
  cases ho : scoreOne cap cfg st p.fst p.snd with
  | error e => rw [ho] at h; cases h
  | ok pr =>
    rw [ho] at h
    simp at h
    rw [← h]
    exact scoreOne_inv cap cfg st pr.1 p.fst p.snd pr.2 (by rw [ho]) hinv

theorem scoreAll_inv (cap : MatchCapability) (cfg : Config) :
    ∀ (ps : List CandidatePair) (st st' : ScoringState),
      scoreAll cap cfg st ps = .ok st' → AdapterInv st → AdapterInv st' := by
  intro ps
  induction ps with
  | nil =>
    intro st st' h hinv
    simp only [scoreAll] at h
    cases h
    exact hinv
  | cons p ps ih =>
    intro st st' h hinv
    simp only [scoreAll] at h
    cases hs : scoreStep cap cfg st p with
    | error e => rw [hs] at h; cases h
    | ok st1 =>
      rw [hs] at h
      exact ih st1 st' h (scoreStep_inv cap cfg st st1 p hs hinv)

/-- C7: during one run, the Blocking Engine emits each unordered pair at
most once (the symmetric keys of the candidate stream are distinct), and
the adapter's memoization invokes the oracle at most once per unordered
pair (the invoked keys are distinct). -/
theorem pairs_scored_once (rows : List Row) (cap : MatchCapability) (cfg : Config)
    (st : ScoringState) (hn : (rows.map Row.id).Nodup)
    (h : scoreAll cap cfg initState (generate_candidates cfg (sortRows rows)) = .ok st) :
    ((generate_candidates cfg (sortRows rows)).map candKey).Nodup ∧
    st.invoked.Nodup := by
  refine ⟨candidate_keys_nodup cfg rows hn, ?_⟩
  have hinv : AdapterInv initState := ⟨List.nodup_nil, by intro k hk; cases hk⟩
  exact (scoreAll_inv cap cfg _ _ _ h hinv).1

/-- Witness for C7 at the concrete chaining scenario. -/
theorem pairs_scored_once_witness :
    ([rowA, rowB, rowC].map Row.id).Nodup ∧
    ((generate_candidates chainConfig (sortRows [rowA, rowB, rowC])).map candKey).Nodup ∧
    (⟨[((1, 2), mkRat 9 10), ((0, 2), mkRat 3 10), ((0, 1), mkRat 9 10)],
      [⟨0, 1, mkRat 9 10⟩, ⟨0, 2, mkRat 3 10⟩, ⟨1, 2, mkRat 9 10⟩],
      [(0, 1), (0, 2), (1, 2)], []⟩ : ScoringState).invoked.Nodup := by
  have h := pairs_scored_once [rowA, rowB, rowC] chainCap chainConfig
    ⟨[((1, 2), mkRat 9 10), ((0, 2), mkRat 3 10), ((0, 1), mkRat 9 10)],
      [⟨0, 1, mkRat 9 10⟩, ⟨0, 2, mkRat 3 10⟩, ⟨1, 2, mkRat 9 10⟩],
      [(0, 1), (0, 2), (1, 2)], []⟩ (by decide) (by decide)
  exact ⟨by decide, h.1, h.2⟩

/-! ## C8: partial-failure tolerance in non-fail-fast mode -/

theorem invokeWithRetry_none (cap : MatchCapability) (m : Nat) (r s : Row)
    (h : ∀ n, n ≤ m → cap r s n = none) : invokeWithRetry cap m r s = none := by
  unfold invokeWithRetry
  have hall : ∀ n, n ≤ m + 1 → attemptUpTo cap r s n = none := by
    intro n
    induction n with
    | zero => intro _; rfl
    | succ k ih =>
      intro hk
      simp only [attemptUpTo]
      rw [ih (Nat.le_of_succ_le hk), h k (Nat.succ_le_succ_iff.mp hk)]
  exact hall (m + 1) (Nat.le_refl _)

theorem scoreStep_ok_of_not_failFast (cap : MatchCapability) (cfg : Config)
    (st : ScoringState) (p : CandidatePair) (hff : cfg.failFast = false) :
    ∃ st', scoreStep cap cfg st p = .ok st' := by
  simp only [scoreStep, scoreOne]
  cases hl : st.cache.lookup (pairKey p.fst.id p.snd.id) with
  | some sc => exact ⟨_, rfl⟩
  | none =>
    cases hi : invokeWithRetry cap cfg.maxRetries p.fst p.snd with
    | some v => exact ⟨_, rfl⟩
    | none =>
      rw [hff]
      exact ⟨_, rfl⟩

theorem scoreAll_ok_of_not_failFast (cap : MatchCapability) (cfg : Config)
    (hff : cfg.failFast = false) :
    ∀ (ps : List CandidatePair) (st : ScoringState),
      ∃ st', scoreAll cap cfg st ps = .ok st' := by
  intro ps
  induction ps with
  | nil => intro st; exact ⟨st, rfl⟩
  | cons p ps ih =>
    intro st
    rcases scoreStep_ok_of_not_failFast cap cfg st p hff with ⟨st1, h1⟩
    rcases ih st1 with ⟨st', h2⟩
    refine ⟨st', ?_⟩
    simp only [scoreAll]
    rw [h1]
    exact h2

theorem scoreStep_mono (cap : MatchCapability) (cfg : Config)
    (st st1 : ScoringState) (p : CandidatePair) (h : scoreStep cap cfg st p = .ok st1) :
    (∀ k ∈ st.failures, k ∈ st1.failures) ∧ ∀ sp ∈ st.scored, sp ∈ st1.scored := by
  simp only [scoreStep, scoreOne] at h
  cases hl : st.cache.lookup (pairKey p.fst.id p.snd.id) with
  | some sc =>
    rw [hl] at h
    simp at h
    rw [← h]
    exact ⟨fun k hk => hk, fun sp hsp => List.mem_append_left _ hsp⟩
  | none =>
    rw [hl] at h
    cases hi : invokeWithRetry cap cfg.maxRetries p.fst p.snd with
    | some v =>
      rw [hi] at h
      simp at h
      rw [← h]
      exact ⟨fun k hk => hk, fun sp hsp => List.mem_append_left _ hsp⟩
    | none =>
      rw [hi] at h
      cases hff : cfg.failFast with
      | true => rw [hff] at h; simp at h
      | false =>
        rw [hff] at h
        simp at h
        rw [← h]
        exact ⟨fun k hk => List.mem_append_left _ hk,
          fun sp hsp => List.mem_append_left _ hsp⟩

theorem scoreAll_mono (cap : MatchCapability) (cfg : Config) :
    ∀ (ps : List CandidatePair) (st st' : ScoringState),
      scoreAll cap cfg st ps = .ok st' →
      (∀ k ∈ st.failures, k ∈ st'.failures) ∧ ∀ sp ∈ st.scored, sp ∈ st'.scored := by
  intro ps
  induction ps with
  | nil =>
    intro st st' h
    simp only [scoreAll] at h
    cases h
    exact ⟨fun _ hk => hk, fun _ hsp => hsp⟩
  | cons p ps ih =>
    intro st st' h
    simp only [scoreAll] at h
    cases hs : scoreStep cap cfg st p with
    | error e => rw [hs] at h; cases h
    | ok st1 =>
      rw [hs] at h
      rcases scoreStep_mono cap cfg st st1 p hs with ⟨hf1, hs1⟩
      rcases ih st1 st' h with ⟨hf2, hs2⟩
      exact ⟨fun k hk => hf2 _ (hf1 _ hk), fun sp hsp => hs2 _ (hs1 _ hsp)⟩

theorem scoreStep_fresh_shape (cap : MatchCapability) (cfg : Config)
    (st st1 : ScoringState) (q : CandidatePair)
    (hl : st.cache.lookup (candKey q) = none)
    (h : scoreStep cap cfg st q = .ok st1) :
    ∃ v, st1.cache = (candKey q, v) :: st.cache := by
  simp only [scoreStep, scoreOne] at h
  unfold candKey at hl
  rw [hl] at h
  cases hi : invokeWithRetry cap cfg.maxRetries q.fst q.snd with
  | some v =>
    rw [hi] at h
    simp at h
    rw [← h]
    exact ⟨normalizeVerdict v, rfl⟩
  | none =>
    rw [hi] at h
    cases hff : cfg.failFast with
    | true => rw [hff] at h; simp at h
    | false =>
      rw [hff] at h
      simp at h
      rw [← h]
      exact ⟨0, rfl⟩

theorem scoreStep_failure_shape (cap : MatchCapability) (cfg : Config)
    (st st1 : ScoringState) (q : CandidatePair) (hff : cfg.failFast = false)
    (hl : st.cache.lookup (candKey q) = none)
    (hi : invokeWithRetry cap cfg.maxRetries q.fst q.snd = none)
    (h : scoreStep cap cfg st q = .ok st1) :
    candKey q ∈ st1.failures ∧ (⟨q.fst.id, q.snd.id, 0⟩ : ScoredPair) ∈ st1.scored := by
  simp only [scoreStep, scoreOne] at h
  unfold candKey at hl
  rw [hl, hi, hff] at h
  simp at h
  rw [← h]
  unfold candKey
  constructor
  · exact List.mem_append_right _ (List.mem_singleton.mpr rfl)
  · exact List.mem_append_right _ (List.mem_singleton.mpr rfl)

theorem scoreAll_records_failure (cap : MatchCapability) (cfg : Config)
    (hff : cfg.failFast = false) :
    ∀ (ps : List CandidatePair) (st st' : ScoringState) (p : CandidatePair),
      p ∈ ps →
      (∀ q ∈ ps, st.cache.lookup (candKey q) = none) →
      (ps.map candKey).Nodup →
      invokeWithRetry cap cfg.maxRetries p.fst p.snd = none →
      scoreAll cap cfg st ps = .ok st' →
      candKey p ∈ st'.failures ∧ (⟨p.fst.id, p.snd.id, 0⟩ : ScoredPair) ∈ st'.scored := by
  intro ps
  induction ps with
  | nil =>
    intro st st' p hp
    cases hp
  | cons q ps ih =>
    intro st st' p hp hfresh hnd hi h
    simp only [scoreAll] at h
    cases hs : scoreStep cap cfg st q with
    | error e => rw [hs] at h; cases h
    | ok st1 =>
      rw [hs] at h
      rcases List.mem_cons.mp hp with hpq | hp2
      · rw [hpq] at hi ⊢
        have hrec := scoreStep_failure_shape cap cfg st st1 q hff
          (hfresh q (List.mem_cons_self q ps)) hi hs
        rcases scoreAll_mono cap cfg ps st1 st' h with ⟨hf, hsc⟩
        exact ⟨hf _ hrec.1, hsc _ hrec.2⟩
      · rcases scoreStep_fresh_shape cap cfg st st1 q
          (hfresh q (List.mem_cons_self q ps)) hs with ⟨v, hcache⟩
        rw [List.map_cons] at hnd
        rcases List.nodup_cons.mp hnd with ⟨hqk, hnd2⟩
        refine ih st1 st' p hp2 ?_ hnd2 hi h
        intro q2 hq2
        have hne : candKey q2 ≠ candKey q := by
          intro hEq
          apply hqk
          rw [← hEq]
          exact List.mem_map.mpr ⟨q2, hq2, rfl⟩
        rw [hcache]
        simp only [List.lookup_cons]
        have hbeq : (candKey q2 == candKey q) = false := by simpa using hne
        rw [hbeq]
        exact hfresh q2 (List.mem_cons_of_mem q hq2)

/-- C8: in non-fail-fast mode, a candidate pair whose oracle invocations
fail at every attempt within the retry budget is treated as score `0`, its
key is recorded in the result metadata, and `sem_resolve` still completes
successfully. -/
theorem sem_resolve_partial_failure (rows : List Row) (cap : MatchCapability)
    (cfg : Config) (p : CandidatePair)
    (hv : validConfig cfg = true) (hff : cfg.failFast = false)
    (hn : (rows.map Row.id).Nodup)
    (hp : p ∈ generate_candidates cfg (sortRows rows))
    (hfail : ∀ n, n ≤ cfg.maxRetries → cap p.fst p.snd n = none) :
    ∃ r, sem_resolve rows cap cfg = .ok r ∧ candKey p ∈ r.failedPairs ∧
      ∃ st, scoreAll cap cfg initState (generate_candidates cfg (sortRows rows)) = .ok st ∧
        (⟨p.fst.id, p.snd.id, 0⟩ : ScoredPair) ∈ st.scored := by
  rcases scoreAll_ok_of_not_failFast cap cfg hff
    (generate_candidates cfg (sortRows rows)) initState with ⟨st, hst⟩
  have hrec := scoreAll_records_failure cap cfg hff
    (generate_candidates cfg (sortRows rows)) initState st p hp
    (fun q _ => rfl) (candidate_keys_nodup cfg rows hn)
    (invokeWithRetry_none cap cfg.maxRetries p.fst p.snd hfail) hst
  unfold validConfig at hv
  unfold sem_resolve
  cases hs : parseStrategy cfg.clusteringStrategy with
  | none => rw [hs] at hv; simp at hv
  | some strat =>
    cases hm : parseMergePolicy cfg.mergePolicy with
    | none => rw [hs, hm] at hv; simp at hv
    | some u =>
      rw [hs, hm] at hv
      simp only [Option.isSome_some, Bool.true_and, Bool.and_eq_true,
        decide_eq_true_eq] at hv
      show ∃ r, (if 0 ≤ cfg.matchThreshold ∧ cfg.matchThreshold ≤ 1 then
          runPipeline cap cfg strat (sortRows rows)
        else Except.error ResolveError.configurationError) = .ok r ∧
        candKey p ∈ r.failedPairs ∧
        ∃ st2, scoreAll cap cfg initState (generate_candidates cfg (sortRows rows)) = .ok st2 ∧
          (⟨p.fst.id, p.snd.id, 0⟩ : ScoredPair) ∈ st2.scored
      rw [if_pos hv]
      have hrun : runPipeline cap cfg strat (sortRows rows) = .ok
          { entities := (build_and_cluster strat cfg.matchThreshold
              ((sortRows rows).map Row.id) st.scored).map
                fun c => canonicalize (sortRows rows) c
          , clusters := build_and_cluster strat cfg.matchThreshold
              ((sortRows rows).map Row.id) st.scored
          , membership := membershipOf (build_and_cluster strat cfg.matchThreshold
              ((sortRows rows).map Row.id) st.scored)
          , failedPairs := st.failures } := by
        unfold runPipeline
        rw [hst]
      exact ⟨_, hrun, hrec.1, st, hst, hrec.2⟩

/-- A capability with a forced transient failure on the pair of rows 0 and
1, at every attempt. -/
def failCap : MatchCapability := fun r s _ =>
  if pairKey r.id s.id = (0, 1) then none else some (.verdictScore 1)

/-- Witness for C8: with the forced failure exceeding the retry budget, the
run completes, the pair is recorded, and its score degrades to 0. -/
theorem sem_resolve_partial_failure_witness :
    validConfig chainConfig = true ∧
    chainConfig.failFast = false ∧
    (⟨rowA, rowB, .proximity⟩ : CandidatePair) ∈
      generate_candidates chainConfig (sortRows [rowA, rowB]) ∧
    ∃ r, sem_resolve [rowA, rowB] failCap chainConfig = .ok r ∧
      candKey ⟨rowA, rowB, .proximity⟩ ∈ r.failedPairs ∧
      ∃ st, scoreAll failCap chainConfig initState
          (generate_candidates chainConfig (sortRows [rowA, rowB])) = .ok st ∧
        (⟨rowA.id, rowB.id, 0⟩ : ScoredPair) ∈ st.scored :=
  ⟨by decide, by decide, by decide,
    sem_resolve_partial_failure [rowA, rowB] failCap chainConfig
      ⟨rowA, rowB, .proximity⟩ (by decide) (by decide) (by decide) (by decide)
      (fun _ _ => rfl)⟩

/-! ## C1: the clusters partition the input row-id set -/

theorem mergeStep_flatten_perm (P : List (List RowId)) (e : RowId × RowId) :
    List.Perm (mergeStep P e).flatten P.flatten := by
  unfold mergeStep
  by_cases hE : (P.filter fun b => decide (e.1 ∈ b) || decide (e.2 ∈ b)).isEmpty = true
  · rw [if_pos hE]
  · rw [if_neg hE]
    rw [List.flatten_cons]
    have hperm :=
      (List.filter_append_perm (fun b => decide (e.1 ∈ b) || decide (e.2 ∈ b)) P).flatten
    rw [List.flatten_append] at hperm
    exact hperm

theorem foldl_mergeStep_flatten_perm (edges : List (RowId × RowId)) :
    ∀ P : List (List RowId), List.Perm (edges.foldl mergeStep P).flatten P.flatten := by
  induction edges with
  | nil => intro P; exact List.Perm.refl _
  | cons e es ih =>
    intro P
    exact (ih (mergeStep P e)).trans (mergeStep_flatten_perm P e)

theorem flatten_map_singleton (ids : List RowId) :
    (ids.map fun i => [i]).flatten = ids := by
  induction ids with
  | nil => rfl
  | cons i ids ih => simp [ih]

theorem connectedClusters_flatten_perm (ids : List RowId)
    (edges : List (RowId × RowId)) :
    List.Perm (connectedClusters ids edges).flatten ids := by
  unfold connectedClusters
  have h1 := foldl_mergeStep_flatten_perm edges (ids.map fun i => [i])
  rw [flatten_map_singleton ids] at h1
  exact h1

theorem extendClique_perm (adj : RowId → RowId → Bool) :
    ∀ (rest mem : List RowId),
      List.Perm ((extendClique adj mem rest).1 ++ (extendClique adj mem rest).2)
        (mem ++ rest) := by
  intro rest
  induction rest with
  | nil => intro mem; simp [extendClique]
  | cons j rest ih =>
    intro mem
    simp only [extendClique]
    by_cases h : (mem.all fun i => adj i j) = true
    · rw [if_pos h]
      have := ih (mem ++ [j])
      rw [List.append_assoc, List.singleton_append] at this
      exact this
    · rw [if_neg h]
      have h1 : List.Perm
          ((extendClique adj mem rest).1 ++ j :: (extendClique adj mem rest).2)
          (j :: ((extendClique adj mem rest).1 ++ (extendClique adj mem rest).2)) :=
        List.perm_middle
      have h2 := (h1.trans ((ih mem).cons j)).trans List.perm_middle.symm
      exact h2

theorem cliquePartition_flatten_perm_aux (adj : RowId → RowId → Bool) :
    ∀ (n : Nat) (l : List RowId), l.length ≤ n →
      List.Perm (cliquePartition adj l).flatten l := by
  intro n
  induction n with
  | zero =>
    intro l hl
    rw [List.length_eq_zero.mp (Nat.le_zero.mp hl)]
    simp [cliquePartition]
  | succ n ih =>
    intro l hl
    cases l with
    | nil => simp [cliquePartition]
    | cons i rest =>
      rw [cliquePartition]
      rw [List.flatten_cons]
      have hlen := extendClique_snd_length adj [i] rest
      have hrec := ih (extendClique adj [i] rest).2
        (le_trans hlen (Nat.succ_le_succ_iff.mp (by simpa using hl)))
      have hstep :
          List.Perm ((extendClique adj [i] rest).1 ++
            (cliquePartition adj (extendClique adj [i] rest).2).flatten)
            ((extendClique adj [i] rest).1 ++ (extendClique adj [i] rest).2) :=
        List.Perm.append_left _ hrec
      exact hstep.trans (extendClique_perm adj rest [i])

theorem cliquePartition_flatten_perm (adj : RowId → RowId → Bool) (l : List RowId) :
    List.Perm (cliquePartition adj l).flatten l :=
  cliquePartition_flatten_perm_aux adj l.length l (Nat.le_refl _)

/-- Inversion of a successful `sem_resolve` run into its stages. -/
theorem sem_resolve_ok_inv (rows : List Row) (cap : MatchCapability) (cfg : Config)
    (r : ResolutionResult) (h : sem_resolve rows cap cfg = .ok r) :
    ∃ strat st, parseStrategy cfg.clusteringStrategy = some strat ∧
      scoreAll cap cfg initState (generate_candidates cfg (sortRows rows)) = .ok st ∧
      r.clusters = build_and_cluster strat cfg.matchThreshold
        ((sortRows rows).map Row.id) st.scored ∧
      r.failedPairs = st.failures := by
  unfold sem_resolve at h
  split at h
  · rename_i strat u hs hm
    split at h
    · unfold runPipeline at h
      split at h
      · cases h
      · rename_i st hst
        simp only [Except.ok.injEq] at h
        refine ⟨strat, st, hs, hst, ?_, ?_⟩
        · rw [← h]
        · rw [← h]
    · cases h
  · cases h

/-- C1: for every input and every successful run (either clustering
strategy), the concatenation of the returned clusters is a permutation of
the input row-id set — every row id in exactly one cluster, no omissions,
no duplicates, singletons included for unmatched rows. -/
theorem sem_resolve_partition (rows : List Row) (cap : MatchCapability)
    (cfg : Config) (r : ResolutionResult)
    (h : sem_resolve rows cap cfg = .ok r) :
    List.Perm r.clusters.flatten (rows.map Row.id) := by
  rcases sem_resolve_ok_inv rows cap cfg r h with ⟨strat, st, _, _, hcl, _⟩
  have hperm : List.Perm ((sortRows rows).map Row.id) (rows.map Row.id) :=
    (sortRows_perm rows).map Row.id
  rw [hcl]
  cases strat with
  | connectedComponents =>
    exact (connectedClusters_flatten_perm _ _).trans hperm
  | thresholdClique =>
    exact (cliquePartition_flatten_perm _ _).trans hperm

/-- A row without geometry (degraded blocking case). -/
def rowN : Row := ⟨7, [("name", some "n")], none⟩

/-- Witness for C1: a concrete successful run whose clusters flatten to a
permutation of the input ids. -/
theorem sem_resolve_partition_witness :
    sem_resolve [rowN] chainCap chainConfig =
      .ok ⟨[⟨[7], [("name", some "n")], none⟩], [[7]], [(7, 0)], []⟩ ∧
    List.Perm ((⟨[⟨[7], [("name", some "n")], none⟩], [[7]], [(7, 0)], []⟩ :
      ResolutionResult).clusters.flatten) ([rowN].map Row.id) :=
  ⟨by decide,
    sem_resolve_partition [rowN] chainCap chainConfig
      ⟨[⟨[7], [("name", some "n")], none⟩], [[7]], [(7, 0)], []⟩ (by decide)⟩

/-! ## C4: raising the threshold refines connected-component clusters -/

/-- Two ids lie in one block of a partition. -/
def sameBlock (P : List (List RowId)) (a b : RowId) : Prop :=
  ∃ c, c ∈ P ∧ a ∈ c ∧ b ∈ c

theorem sameBlock_symm (P : List (List RowId)) (a b : RowId)
    (h : sameBlock P a b) : sameBlock P b a := by
  rcases h with ⟨c, hc, ha, hb⟩
  exact ⟨c, hc, hb, ha⟩

theorem sameBlock_trans : ∀ P : List (List RowId), P.flatten.Nodup →
    ∀ a b c : RowId, sameBlock P a b → sameBlock P b c → sameBlock P a c := by
  intro P
  induction P with
  | nil =>
    intro _ a b c h1 _
    rcases h1 with ⟨c1, hc1, _⟩
    cases hc1
  | cons blk P ih =>
    intro hnd a b c h1 h2
    rw [List.flatten_cons, List.nodup_append] at hnd
    rcases hnd with ⟨_, hP, hdisj⟩
    rcases h1 with ⟨c1, hc1, ha1, hb1⟩
    rcases h2 with ⟨c2, hc2, hb2, hc2m⟩
    rcases List.mem_cons.mp hc1 with h1e | hc1t
    · rcases List.mem_cons.mp hc2 with h2e | hc2t
      · exact ⟨blk, List.mem_cons_self blk P, h1e ▸ ha1, h2e ▸ hc2m⟩
      · exact absurd (List.mem_flatten.mpr ⟨c2, hc2t, hb2⟩)
          (fun hm => hdisj (h1e ▸ hb1) hm)
    · rcases List.mem_cons.mp hc2 with h2e | hc2t
      · exact absurd (List.mem_flatten.mpr ⟨c1, hc1t, hb1⟩)
          (fun hm => hdisj (h2e ▸ hb2) hm)
      · rcases ih hP a b c ⟨c1, hc1t, ha1, hb1⟩ ⟨c2, hc2t, hb2, hc2m⟩ with ⟨c3, hc3, h3⟩
        exact ⟨c3, List.mem_cons_of_mem blk hc3, h3⟩

theorem mem_block_of_sameBlock : ∀ P : List (List RowId), P.flatten.Nodup →
    ∀ (c : List RowId) (a b : RowId), c ∈ P → a ∈ c → sameBlock P a b → b ∈ c := by
  intro P
  induction P with
  | nil =>
    intro _ c a b hc
    cases hc
  | cons blk P ih =>
    intro hnd c a b hc ha hab
    rw [List.flatten_cons, List.nodup_append] at hnd
    rcases hnd with ⟨_, hP, hdisj⟩
    rcases hab with ⟨c1, hc1, ha1, hb1⟩
    rcases List.mem_cons.mp hc with rfl | hct
    · rcases List.mem_cons.mp hc1 with rfl | hc1t
      · exact hb1
      · exact absurd (List.mem_flatten.mpr ⟨c1, hc1t, ha1⟩) (fun hm => hdisj ha hm)
    · rcases List.mem_cons.mp hc1 with rfl | hc1t
      · exact absurd (List.mem_flatten.mpr ⟨c, hct, ha⟩) (fun hm => hdisj ha1 hm)
      · exact ih hP c a b hct ha ⟨c1, hc1t, ha1, hb1⟩

theorem sameBlock_mergeStep (P : List (List RowId)) (e : RowId × RowId)
    (a b : RowId) (h : sameBlock P a b) : sameBlock (mergeStep P e) a b := by
  rcases h with ⟨c, hc, ha, hb⟩
  unfold mergeStep
  by_cases hE : (P.filter fun blk => decide (e.1 ∈ blk) || decide (e.2 ∈ blk)).isEmpty = true
  · rw [if_pos hE]
    exact ⟨c, hc, ha, hb⟩
  · rw [if_neg hE]
    by_cases hp : (decide (e.1 ∈ c) || decide (e.2 ∈ c)) = true
    · refine ⟨(P.filter fun blk => decide (e.1 ∈ blk) || decide (e.2 ∈ blk)).flatten,
        List.mem_cons_self _ _, ?_, ?_⟩
      · exact List.mem_flatten.mpr ⟨c, List.mem_filter.mpr ⟨hc, hp⟩, ha⟩
      · exact List.mem_flatten.mpr ⟨c, List.mem_filter.mpr ⟨hc, hp⟩, hb⟩
    · have hp2 : (!(decide (e.1 ∈ c) || decide (e.2 ∈ c))) = true := by
        simp only [Bool.not_eq_true'] at hp ⊢
        exact Bool.not_eq_true _ ▸ (by simpa using hp)
      exact ⟨c, List.mem_cons_of_mem _ (List.mem_filter.mpr ⟨hc, hp2⟩), ha, hb⟩

theorem mergeStep_connects (P : List (List RowId)) (e : RowId × RowId)
    (h1 : e.1 ∈ P.flatten) (h2 : e.2 ∈ P.flatten) :
    sameBlock (mergeStep P e) e.1 e.2 := by
  rcases List.mem_flatten.mp h1 with ⟨c1, hc1, ha⟩
  rcases List.mem_flatten.mp h2 with ⟨c2, hc2, hb⟩
  have hf1 : c1 ∈ P.filter fun blk => decide (e.1 ∈ blk) || decide (e.2 ∈ blk) :=
    List.mem_filter.mpr ⟨hc1, by simp [ha]⟩
  have hf2 : c2 ∈ P.filter fun blk => decide (e.1 ∈ blk) || decide (e.2 ∈ blk) :=
    List.mem_filter.mpr ⟨hc2, by simp [hb]⟩
  unfold mergeStep
  have hE : (P.filter fun blk => decide (e.1 ∈ blk) || decide (e.2 ∈ blk)).isEmpty ≠ true := by
    intro hE
    rw [List.isEmpty_iff] at hE
    rw [hE] at hf1
    cases hf1
  rw [if_neg hE]
  refine ⟨(P.filter fun blk => decide (e.1 ∈ blk) || decide (e.2 ∈ blk)).flatten,
    List.mem_cons_self _ _, ?_, ?_⟩
  · exact List.mem_flatten.mpr ⟨c1, hf1, ha⟩
  · exact List.mem_flatten.mpr ⟨c2, hf2, hb⟩

theorem sameBlock_foldl (es : List (RowId × RowId)) :
    ∀ (P : List (List RowId)) (a b : RowId), sameBlock P a b →
      sameBlock (es.foldl mergeStep P) a b := by
  induction es with
  | nil => intro P a b h; exact h
  | cons e es ih =>
    intro P a b h
    exact ih (mergeStep P e) a b (sameBlock_mergeStep P e a b h)

theorem foldl_connects (es : List (RowId × RowId)) :
    ∀ (P : List (List RowId)) (e : RowId × RowId), e ∈ es →
      e.1 ∈ P.flatten → e.2 ∈ P.flatten →
      sameBlock (es.foldl mergeStep P) e.1 e.2 := by
  induction es with
  | nil =>
    intro P e he
    cases he
  | cons e0 es ih =>
    intro P e he h1 h2
    rcases List.mem_cons.mp he with rfl | het
    · exact sameBlock_foldl es _ _ _ (mergeStep_connects P e h1 h2)
    · exact ih (mergeStep P e0) e het
        ((mergeStep_flatten_perm P e0).mem_iff.mpr h1)
        ((mergeStep_flatten_perm P e0).mem_iff.mpr h2)

theorem foldl_refines (Q : List (List RowId)) (hQn : Q.flatten.Nodup) :
    ∀ (es : List (RowId × RowId)) (P : List (List RowId)),
      (∀ e ∈ es, sameBlock Q e.1 e.2) →
      (∀ a b, sameBlock P a b → sameBlock Q a b) →
      ∀ a b, sameBlock (es.foldl mergeStep P) a b → sameBlock Q a b := by
  intro es
  induction es with
  | nil =>
    intro P _ hPQ a b hab
    exact hPQ a b hab
  | cons e es ih =>
    intro P hes hPQ a b hab
    refine ih (mergeStep P e) (fun e2 he2 => hes e2 (List.mem_cons_of_mem _ he2)) ?_ a b hab
    intro x y hxy
    unfold mergeStep at hxy
    by_cases hE : (P.filter fun blk => decide (e.1 ∈ blk) || decide (e.2 ∈ blk)).isEmpty = true
    · rw [if_pos hE] at hxy
      exact hPQ x y hxy
    · rw [if_neg hE] at hxy
      rcases hxy with ⟨c, hc, hx, hy⟩
      rcases List.mem_cons.mp hc with rfl | hct
      · rcases List.mem_flatten.mp hx with ⟨cx, hcx, hx2⟩
        rcases List.mem_flatten.mp hy with ⟨cy, hcy, hy2⟩
        rcases List.mem_filter.mp hcx with ⟨hcxP, hpx⟩
        rcases List.mem_filter.mp hcy with ⟨hcyP, hpy⟩
        have hQe : sameBlock Q e.1 e.2 := hes e (List.mem_cons_self _ _)
        have hxz : ∃ z, (z = e.1 ∨ z = e.2) ∧ sameBlock Q x z := by
          rcases Bool.or_eq_true_iff.mp hpx with h | h
          · exact ⟨e.1, Or.inl rfl, hPQ x e.1 ⟨cx, hcxP, hx2, of_decide_eq_true h⟩⟩
          · exact ⟨e.2, Or.inr rfl, hPQ x e.2 ⟨cx, hcxP, hx2, of_decide_eq_true h⟩⟩
        have hyz : ∃ z, (z = e.1 ∨ z = e.2) ∧ sameBlock Q y z := by
          rcases Bool.or_eq_true_iff.mp hpy with h | h
          · exact ⟨e.1, Or.inl rfl, hPQ y e.1 ⟨cy, hcyP, hy2, of_decide_eq_true h⟩⟩
          · exact ⟨e.2, Or.inr rfl, hPQ y e.2 ⟨cy, hcyP, hy2, of_decide_eq_true h⟩⟩
        rcases hxz with ⟨z1, hz1, hxz⟩
        rcases hyz with ⟨z2, hz2, hyz⟩
        have hzz : sameBlock Q z1 z2 := by
          rcases hQe with ⟨c0, hc0, h01, h02⟩
          rcases hz1 with rfl | rfl <;> rcases hz2 with rfl | rfl
          · exact ⟨c0, hc0, h01, h01⟩
          · exact ⟨c0, hc0, h01, h02⟩
          · exact ⟨c0, hc0, h02, h01⟩
          · exact ⟨c0, hc0, h02, h02⟩
        exact sameBlock_trans Q hQn x z2 y
          (sameBlock_trans Q hQn x z1 z2 hxz hzz) (sameBlock_symm Q y z2 hyz)
      · exact hPQ x y ⟨c, (List.mem_filter.mp hct).1, hx, hy⟩

theorem mergeStep_blocks_ne_nil (P : List (List RowId)) (e : RowId × RowId)
    (h : ∀ c ∈ P, c ≠ []) : ∀ c ∈ mergeStep P e, c ≠ [] := by
  intro c hc
  unfold mergeStep at hc
  by_cases hE : (P.filter fun blk => decide (e.1 ∈ blk) || decide (e.2 ∈ blk)).isEmpty = true
  · rw [if_pos hE] at hc
    exact h c hc
  · rw [if_neg hE] at hc
    rcases List.mem_cons.mp hc with rfl | hct
    · have hex : ∃ bb, bb ∈ P.filter fun blk => decide (e.1 ∈ blk) || decide (e.2 ∈ blk) := by
        cases hfil : P.filter fun blk => decide (e.1 ∈ blk) || decide (e.2 ∈ blk) with
        | nil => rw [List.isEmpty_iff] at hE; exact absurd hfil hE
        | cons bb t => exact ⟨bb, List.mem_cons_self bb t⟩
      rcases hex with ⟨b, hb⟩
      rcases List.exists_mem_of_ne_nil b (h b (List.mem_filter.mp hb).1) with ⟨x, hx⟩
      intro hflat
      have hmem : x ∈ (P.filter fun blk =>
          decide (e.1 ∈ blk) || decide (e.2 ∈ blk)).flatten :=
        List.mem_flatten.mpr ⟨b, hb, hx⟩
      rw [hflat] at hmem
      cases hmem
    · exact h c (List.mem_filter.mp hct).1

theorem connectedClusters_blocks_ne_nil (ids : List RowId)
    (edges : List (RowId × RowId)) :
    ∀ c ∈ connectedClusters ids edges, c ≠ [] := by
  unfold connectedClusters
  have base : ∀ c ∈ ids.map fun i => [i], c ≠ [] := by
    intro c hc
    rcases List.mem_map.mp hc with ⟨i, _, rfl⟩
    simp
  revert base
  generalize ids.map (fun i => [i]) = P
  induction edges generalizing P with
  | nil => intro base; exact base
  | cons e es ih =>
    intro base
    exact ih (mergeStep P e) (mergeStep_blocks_ne_nil P e base)

/-- The partition produced from a smaller accepted-edge set is coarser:
every cluster of the larger-threshold (fewer edges) run is contained in a
cluster of the smaller-threshold (more edges) run. -/
theorem connected_refines (ids : List RowId) (E1 E2 : List (RowId × RowId))
    (hn : ids.Nodup) (hsub : ∀ e ∈ E2, e ∈ E1)
    (hends : ∀ e ∈ E2, e.1 ∈ ids ∧ e.2 ∈ ids) :
    ∀ c2 ∈ connectedClusters ids E2, ∃ c1 ∈ connectedClusters ids E1,
      ∀ x ∈ c2, x ∈ c1 := by
  intro c2 hc2
  have hQperm := connectedClusters_flatten_perm ids E1
  have hQn : (connectedClusters ids E1).flatten.Nodup := hQperm.symm.nodup hn
  have href : ∀ a b, sameBlock (connectedClusters ids E2) a b →
      sameBlock (connectedClusters ids E1) a b := by
    apply foldl_refines (connectedClusters ids E1) hQn E2 (ids.map fun i => [i])
    · intro e he
      refine foldl_connects E1 (ids.map fun i => [i]) e (hsub e he) ?_ ?_
      · rw [flatten_map_singleton]
        exact (hends e he).1
      · rw [flatten_map_singleton]
        exact (hends e he).2
    · intro a b hab
      rcases hab with ⟨c, hc, ha, hb⟩
      rcases List.mem_map.mp hc with ⟨i, hi, rfl⟩
      have ha2 : a = i := by simpa using ha
      have hb2 : b = i := by simpa using hb
      rw [ha2, hb2]
      have hiq : i ∈ (connectedClusters ids E1).flatten := hQperm.mem_iff.mpr hi
      rcases List.mem_flatten.mp hiq with ⟨c1, hc1, hic⟩
      exact ⟨c1, hc1, hic, hic⟩
  have hne : c2 ≠ [] := connectedClusters_blocks_ne_nil ids E2 c2 hc2
  rcases List.exists_mem_of_ne_nil c2 hne with ⟨a, ha⟩
  have haQ : a ∈ (connectedClusters ids E1).flatten :=
    hQperm.mem_iff.mpr ((connectedClusters_flatten_perm ids E2).mem_iff.mp
      (List.mem_flatten.mpr ⟨c2, hc2, ha⟩))
  rcases List.mem_flatten.mp haQ with ⟨c1, hc1, hac1⟩
  refine ⟨c1, hc1, ?_⟩
  intro x hx
  exact mem_block_of_sameBlock (connectedClusters ids E1) hQn c1 a x hc1 hac1
    (href a x ⟨c2, hc2, ha, hx⟩)

theorem scoreOne_scored (cap : MatchCapability) (cfg : Config)
    (st st1 : ScoringState) (r s : Row) (sc : Score)
    (h : scoreOne cap cfg st r s = .ok (st1, sc)) : st1.scored = st.scored := by
  simp only [scoreOne] at h
  cases hl : st.cache.lookup (pairKey r.id s.id) with
  | some sc0 =>
    rw [hl] at h
    simp at h
    rw [← h.1]
  | none =>
    rw [hl] at h
    cases hi : invokeWithRetry cap cfg.maxRetries r s with
    | some v =>
      rw [hi] at h
      simp at h
      rw [← h.1]
    | none =>
      rw [hi] at h
      cases hff : cfg.failFast with
      | true => rw [hff] at h; simp at h
      | false =>
        rw [hff] at h
        simp at h
        rw [← h.1]

theorem scoreStep_scored_shape (cap : MatchCapability) (cfg : Config)
    (st st1 : ScoringState) (p : CandidatePair)
    (h : scoreStep cap cfg st p = .ok st1) :
    ∃ sc, st1.scored = st.scored ++ [⟨p.fst.id, p.snd.id, sc⟩] := by
  simp only [scoreStep] at h
  cases ho : scoreOne cap cfg st p.fst p.snd with
  | error e => rw [ho] at h; cases h
  | ok pr =>
    rw [ho] at h
    simp at h
    refine ⟨pr.2, ?_⟩
    rw [← h]
    have := scoreOne_scored cap cfg st pr.1 p.fst p.snd pr.2 (by rw [ho])
    rw [this]

theorem scoreAll_scored_shape (cap : MatchCapability) (cfg : Config) :
    ∀ (ps : List CandidatePair) (st st' : ScoringState),
      scoreAll cap cfg st ps = .ok st' → ∀ sp ∈ st'.scored,
        sp ∈ st.scored ∨ ∃ p ∈ ps, sp.a = p.fst.id ∧ sp.b = p.snd.id := by
  intro ps
  induction ps with
  | nil =>
    intro st st' h sp hsp
    simp only [scoreAll] at h
    cases h
    exact Or.inl hsp
  | cons p ps ih =>
    intro st st' h sp hsp
    simp only [scoreAll] at h
    cases hs : scoreStep cap cfg st p with
    | error e => rw [hs] at h; cases h
    | ok st1 =>
      rw [hs] at h
      rcases ih st1 st' h sp hsp with h1 | ⟨q, hq, hqa, hqb⟩
      · rcases scoreStep_scored_shape cap cfg st st1 p hs with ⟨sc, hsc⟩
        rw [hsc] at h1
        rcases List.mem_append.mp h1 with h2 | h2
        · exact Or.inl h2
        · refine Or.inr ⟨p, List.mem_cons_self p ps, ?_, ?_⟩
          · rw [List.mem_singleton.mp h2]
          · rw [List.mem_singleton.mp h2]
      · exact Or.inr ⟨q, List.mem_cons_of_mem p hq, hqa, hqb⟩

theorem scoreAll_threshold_congr (cap : MatchCapability) (cfg : Config) (t : Score) :
    ∀ (ps : List CandidatePair) (st : ScoringState),
      scoreAll cap { cfg with matchThreshold := t } st ps = scoreAll cap cfg st ps := by
  intro ps
  induction ps with
  | nil => intro st; rfl
  | cons p ps ih =>
    intro st
    simp only [scoreAll]
    have hstep : scoreStep cap { cfg with matchThreshold := t } st p =
        scoreStep cap cfg st p := rfl
    rw [hstep]
    cases h2 : scoreStep cap cfg st p with
    | error e => rfl
    | ok st1 => exact ih st1

theorem acceptedEdges_mono (t1 t2 : Score) (hle : t1 ≤ t2)
    (scored : List ScoredPair) :
    ∀ e ∈ acceptedEdges t2 scored, e ∈ acceptedEdges t1 scored := by
  intro e he
  rcases List.mem_map.mp he with ⟨sp, hsp, heq⟩
  rcases List.mem_filter.mp hsp with ⟨hmem, hsc⟩
  refine List.mem_map.mpr ⟨sp, List.mem_filter.mpr ⟨hmem, ?_⟩, heq⟩
  simp only [decide_eq_true_eq] at hsc ⊢
  exact le_trans hle hsc

/-- C4: with the connected-components strategy, raising the match threshold
refines the clustering — every cluster computed at the higher threshold is
contained in some cluster computed at the lower threshold, so cluster sizes
never increase. -/
theorem threshold_monotone (rows : List Row) (cap : MatchCapability) (cfg : Config)
    (t2 : Score) (r1 r2 : ResolutionResult)
    (hn : (rows.map Row.id).Nodup)
    (hcc : cfg.clusteringStrategy = "connected-components")
    (hle : cfg.matchThreshold ≤ t2)
    (h1 : sem_resolve rows cap cfg = .ok r1)
    (h2 : sem_resolve rows cap { cfg with matchThreshold := t2 } = .ok r2) :
    ∀ c2 ∈ r2.clusters, ∃ c1 ∈ r1.clusters, ∀ x ∈ c2, x ∈ c1 := by
  rcases sem_resolve_ok_inv rows cap cfg r1 h1 with ⟨s1, st1, hs1, hst1, hcl1, _⟩
  rcases sem_resolve_ok_inv rows cap { cfg with matchThreshold := t2 } r2 h2 with
    ⟨s2, st2, hs2, hst2, hcl2, _⟩
  have hparse : parseStrategy "connected-components" =
      some ClusteringStrategy.connectedComponents := rfl
  have hs1e : s1 = ClusteringStrategy.connectedComponents := by
    rw [hcc, hparse] at hs1
    exact (Option.some.inj hs1).symm
  have hs2e : s2 = ClusteringStrategy.connectedComponents := by
    have hcs : ({ cfg with matchThreshold := t2 } : Config).clusteringStrategy =
        cfg.clusteringStrategy := rfl
    rw [hcs, hcc, hparse] at hs2
    exact (Option.some.inj hs2).symm
  have hgen : generate_candidates { cfg with matchThreshold := t2 } (sortRows rows) =
      generate_candidates cfg (sortRows rows) := rfl
  rw [hgen, scoreAll_threshold_congr cap cfg t2] at hst2
  have hstEq : st1 = st2 := Except.ok.inj (hst1.symm.trans hst2)
  rw [hs1e] at hcl1
  rw [hs2e, ← hstEq] at hcl2
  have hmt : ({ cfg with matchThreshold := t2 } : Config).matchThreshold = t2 := rfl
  rw [hmt] at hcl2
  have hids : ((sortRows rows).map Row.id).Nodup :=
    (((sortRows_perm rows).map Row.id).nodup_iff).mpr hn
  have hends : ∀ e ∈ acceptedEdges t2 st1.scored,
      e.1 ∈ (sortRows rows).map Row.id ∧ e.2 ∈ (sortRows rows).map Row.id := by
    intro e he
    rcases List.mem_map.mp he with ⟨sp, hsp, heq⟩
    have hspm : sp ∈ st1.scored := (List.mem_filter.mp hsp).1
    rcases scoreAll_scored_shape cap cfg _ initState st1 hst1 sp hspm with
      h0 | ⟨p, hp, ha, hb⟩
    · cases h0
    · rcases generate_candidates_shape cfg (sortRows rows) p hp with ⟨q, hq, hf, hsn⟩
      rcases allPairs_mem (sortRows rows) q hq with ⟨hq1, hq2⟩
      rw [← heq]
      constructor
      · rw [ha, hf]
        exact List.mem_map.mpr ⟨q.1, hq1, rfl⟩
      · rw [hb, hsn]
        exact List.mem_map.mpr ⟨q.2, hq2, rfl⟩
  intro c2 hc2
  rw [hcl2] at hc2
  rw [hcl1]
  exact connected_refines ((sortRows rows).map Row.id)
    (acceptedEdges cfg.matchThreshold st1.scored) (acceptedEdges t2 st1.scored)
    hids (acceptedEdges_mono cfg.matchThreshold t2 hle st1.scored) hends c2 hc2

/-- A geometry-less row sharing a postal blocking key, id 0. -/
def rowP : Row := ⟨0, [("postal", some "11")], none⟩

/-- A geometry-less row sharing a postal blocking key, id 1. -/
def rowQ : Row := ⟨1, [("postal", some "11")], none⟩

/-- A capability scoring every pair 0.9. -/
def keyCap : MatchCapability := fun _ _ _ => some (.verdictScore (mkRat 9 10))

/-- A key-blocking connected-components configuration with threshold 0.8. -/
def keyConfig : Config :=
  { blockingRadius := 1
  , blockingKeyFields := ["postal"]
  , batchSize := 4
  , matchThreshold := mkRat 8 10
  , clusteringStrategy := "connected-components"
  , mergePolicy := "prefer-complete"
  , maxRetries := 1
  , failFast := false }

/-- Witness for C4: thresholds 0.8 versus 0.95 on a 0.9-scoring pair — the
higher threshold splits the cluster, and each of its clusters is contained
in a cluster of the lower-threshold run. -/
theorem threshold_monotone_witness :
    ([rowP, rowQ].map Row.id).Nodup ∧
    keyConfig.clusteringStrategy = "connected-components" ∧
    keyConfig.matchThreshold ≤ mkRat 95 100 ∧
    sem_resolve [rowP, rowQ] keyCap keyConfig =
      .ok ⟨[⟨[0, 1], [("postal", some "11")], none⟩], [[0, 1]], [(0, 0), (1, 0)], []⟩ ∧
    sem_resolve [rowP, rowQ] keyCap { keyConfig with matchThreshold := mkRat 95 100 } =
      .ok ⟨[⟨[0], [("postal", some "11")], none⟩, ⟨[1], [("postal", some "11")], none⟩],
        [[0], [1]], [(0, 0), (1, 1)], []⟩ ∧
    ∀ c2 ∈ (⟨[⟨[0], [("postal", some "11")], none⟩, ⟨[1], [("postal", some "11")], none⟩],
        [[0], [1]], [(0, 0), (1, 1)], []⟩ : ResolutionResult).clusters,
      ∃ c1 ∈ (⟨[⟨[0, 1], [("postal", some "11")], none⟩], [[0, 1]],
        [(0, 0), (1, 0)], []⟩ : ResolutionResult).clusters, ∀ x ∈ c2, x ∈ c1 :=
  ⟨by decide, rfl, by decide, by decide, by decide,
    threshold_monotone [rowP, rowQ] keyCap keyConfig (mkRat 95 100)
      ⟨[⟨[0, 1], [("postal", some "11")], none⟩], [[0, 1]], [(0, 0), (1, 0)], []⟩
      ⟨[⟨[0], [("postal", some "11")], none⟩, ⟨[1], [("postal", some "11")], none⟩],
        [[0], [1]], [(0, 0), (1, 1)], []⟩
      (by decide) rfl (by decide) (by decide) (by decide)⟩

end GeoSemOps
